import Mathlib

/-!
Shallow embedding of the indicator engine in `stock-analyzer.py`
(`calculate_technical_indicators`, lines 22-64).

Prices and volumes are modelled as rationals (the spec requires finite real
inputs; every operation of the engine except the Bollinger standard deviation
is a field operation, which ℚ models exactly).  A missing value (pandas NaN)
is `Option.none` for the ℚ-valued columns; the RSI arithmetic, which can
produce IEEE infinities by dividing by zero, is carried out in the type `FV`
below, which models an IEEE double as NaN, +inf, -inf or a finite value.
The Bollinger standard deviation needs a square root, so those two columns
live in `Option ℝ` via `Real.sqrt`.
-/

/-- An IEEE floating-point value as the RSI arithmetic of the source sees it:
NaN, +infinity, -infinity, or a finite number (modelled exactly as a
rational). -/
inductive FV where
  | nan : FV
  | inf : FV
  | ninf : FV
  | num (q : ℚ) : FV
deriving DecidableEq

/-- IEEE addition on `FV`: NaN propagates, opposite infinities give NaN. -/
def FV.add : FV → FV → FV
  | nan, _ => nan
  | _, nan => nan
  | inf, ninf => nan
  | ninf, inf => nan
  | inf, _ => inf
  | _, inf => inf
  | ninf, _ => ninf
  | _, ninf => ninf
  | num a, num b => num (a + b)

/-- IEEE negation on `FV`. -/
def FV.neg : FV → FV
  | nan => nan
  | inf => ninf
  | ninf => inf
  | num a => num (-a)

/-- IEEE subtraction on `FV`. -/
def FV.sub (a b : FV) : FV := a.add b.neg

/-- IEEE division on `FV`: NaN propagates, inf/inf is NaN, a finite number
divided by (positive) zero is a signed infinity, 0/0 is NaN, a finite number
divided by an infinity is 0. -/
def FV.div : FV → FV → FV
  | nan, _ => nan
  | _, nan => nan
  | inf, inf => nan
  | inf, ninf => nan
  | ninf, inf => nan
  | ninf, ninf => nan
  | inf, num b => if b < 0 then ninf else inf
  | ninf, num b => if b < 0 then inf else ninf
  | num _, inf => num 0
  | num _, ninf => num 0
  | num a, num b =>
      if b = 0 then (if a = 0 then nan else if 0 < a then inf else ninf)
      else num (a / b)

/-- A pandas cell (`none` = NaN) read as an `FV`. -/
def FV.ofOpt : Option ℚ → FV
  | none => nan
  | some q => num q

/-- Whether an `FV` is NaN (what `DataFrame.dropna` tests; infinities are
kept by `dropna`). -/
def FV.isNaN : FV → Bool
  | nan => true
  | _ => false

/-- The close column of the input frame (a row is a (Close, Volume) pair). -/
def closesOf (df : List (ℚ × ℚ)) : List ℚ := df.map Prod.fst

/-- The volume column of the input frame. -/
def volumesOf (df : List (ℚ × ℚ)) : List ℚ := df.map Prod.snd

/-- The trailing window of (up to) `k` values ending at row `i`. -/
def window (k : ℕ) (xs : List ℚ) (i : ℕ) : List ℚ := (xs.take (i + 1)).drop (i + 1 - k)

/-- `xs.rolling(window=k).mean()` at row `i` (pandas default
`min_periods = k`: NaN while fewer than `k` observations exist). -/
def smaAt (k : ℕ) (xs : List ℚ) (i : ℕ) : Option ℚ :=
  if i + 1 < k then none else some ((window k xs i).sum / (k : ℚ))

/-- The whole rolling-mean column over `xs`. -/
def smaCol (k : ℕ) (xs : List ℚ) : List (Option ℚ) :=
  (List.range xs.length).map (smaAt k xs)

/-- The square of `xs.rolling(window=20).std()` at row `i`: the sample
variance (pandas default `ddof = 1`, so the divisor is 19) of the trailing
20-bar window. -/
def var20At (xs : List ℚ) (i : ℕ) : Option ℚ :=
  if i + 1 < 20 then none else
    some (((window 20 xs i).map (fun x => (x - (window 20 xs i).sum / 20) ^ 2)).sum / 19)

/-- One step of `Series.ewm(adjust=False).mean()`: the state is the last
emitted mean (`none` before the first non-NaN observation); a NaN input
leaves the state unchanged, the first non-NaN observation seeds the state,
and later observations update it by `α·x + (1-α)·state`. -/
def ewmStep (α : ℚ) (st : Option ℚ) (x : Option ℚ) : Option ℚ :=
  match st, x with
  | none, none => none
  | none, some q => some q
  | some s, none => some s
  | some s, some q => some (α * q + (1 - α) * s)

/-- `xs.ewm(adjust=False).mean()` at row `i` with smoothing factor `α`:
the state after folding `ewmStep` over rows `0 … i` (the emitted value at a
row equals the state after processing that row; it is NaN while no
observation has been seen). -/
def ewmAt (α : ℚ) (xs : List (Option ℚ)) (i : ℕ) : Option ℚ :=
  (xs.take (i + 1)).foldl (ewmStep α) none

/-- `xs.ewm(span=k, adjust=False).mean()` at row `i` on a fully observed
column: pandas derives `α = 2/(k+1)` from the span. -/
def emaSpanAt (span : ℕ) (xs : List ℚ) (i : ℕ) : Option ℚ :=
  ewmAt (2 / ((span : ℚ) + 1)) (xs.map some) i

/-- `data['Close'].diff(1)` at row `i`: NaN at row 0, else the first
difference. -/
def deltaAt (xs : List ℚ) (i : ℕ) : Option ℚ :=
  if i = 0 then none else some (xs.getD i 0 - xs.getD (i - 1) 0)

/-- The gain column: `gain = delta.copy(); gain[gain < 0] = 0` (NaN stays
NaN since `NaN < 0` is false). -/
def gainAt (xs : List ℚ) (i : ℕ) : Option ℚ :=
  match deltaAt xs i with
  | none => none
  | some d => some (if d < 0 then 0 else d)

/-- The loss column: `loss = delta.copy(); loss[loss > 0] = 0` (negative
deltas are kept with their sign). -/
def lossAt (xs : List ℚ) (i : ℕ) : Option ℚ :=
  match deltaAt xs i with
  | none => none
  | some d => some (if 0 < d then 0 else d)

/-- The gain column as a list. -/
def gainCol (xs : List ℚ) : List (Option ℚ) := (List.range xs.length).map (gainAt xs)

/-- The loss column as a list. -/
def lossCol (xs : List ℚ) : List (Option ℚ) := (List.range xs.length).map (lossAt xs)

/-- `avg_gain = gain.ewm(span=14, adjust=False).mean()` at row `i`. -/
def avgGainAt (xs : List ℚ) (i : ℕ) : Option ℚ :=
  ewmAt (2 / ((14 : ℚ) + 1)) (gainCol xs) i

/-- `avg_loss = abs(loss.ewm(span=14, adjust=False).mean())` at row `i`
(the absolute value is applied after the smoothing, as in the source). -/
def avgLossAt (xs : List ℚ) (i : ℕ) : Option ℚ :=
  (ewmAt (2 / ((14 : ℚ) + 1)) (lossCol xs) i).map (fun q => |q|)

/-- `rs = avg_gain / avg_loss` at row `i`: a raw IEEE division, with no
special case for a zero denominator. -/
def rsAt (xs : List ℚ) (i : ℕ) : FV :=
  FV.div (FV.ofOpt (avgGainAt xs i)) (FV.ofOpt (avgLossAt xs i))

/-- `data['RSI'] = 100 - (100 / (1 + rs))` at row `i`, in IEEE arithmetic. -/
def rsiAt (xs : List ℚ) (i : ℕ) : FV :=
  FV.sub (FV.num 100) (FV.div (FV.num 100) (FV.add (FV.num 1) (rsAt xs i)))

/-- `data['EMA_12']` at row `i`. -/
def ema12At (xs : List ℚ) (i : ℕ) : Option ℚ := emaSpanAt 12 xs i

/-- `data['EMA_26']` at row `i`. -/
def ema26At (xs : List ℚ) (i : ℕ) : Option ℚ := emaSpanAt 26 xs i

/-- Elementwise subtraction of two columns (NaN propagates, as in pandas). -/
def optSub : Option ℚ → Option ℚ → Option ℚ
  | some a, some b => some (a - b)
  | _, _ => none

/-- `data['MACD'] = data['EMA_12'] - data['EMA_26']` at row `i`. -/
def macdAt (xs : List ℚ) (i : ℕ) : Option ℚ := optSub (ema12At xs i) (ema26At xs i)

/-- The MACD column as a list. -/
def macdCol (xs : List ℚ) : List (Option ℚ) := (List.range xs.length).map (macdAt xs)

/-- `data['Signal_Line'] = data['MACD'].ewm(span=9, adjust=False).mean()`
at row `i`. -/
def signalAt (xs : List ℚ) (i : ℕ) : Option ℚ :=
  ewmAt (2 / ((9 : ℚ) + 1)) (macdCol xs) i

/-- `data['Middle_Band'] = data['Close'].rolling(window=20).mean()` at
row `i`. -/
def middleAt (xs : List ℚ) (i : ℕ) : Option ℚ := smaAt 20 xs i

/-- `data['Close'].rolling(window=20).std()` at row `i`: the square root of
the trailing sample variance. -/
noncomputable def stdAt (xs : List ℚ) (i : ℕ) : Option ℝ :=
  (var20At xs i).map (fun v : ℚ => Real.sqrt (v : ℝ))

/-- `data['Upper_Band'] = data['Middle_Band'] + (rolling std * 2)` at
row `i`. -/
noncomputable def upperAt (xs : List ℚ) (i : ℕ) : Option ℝ :=
  match middleAt xs i, stdAt xs i with
  | some m, some s => some ((m : ℝ) + s * 2)
  | _, _ => none

/-- `data['Lower_Band'] = data['Middle_Band'] - (rolling std * 2)` at
row `i`. -/
noncomputable def lowerAt (xs : List ℚ) (i : ℕ) : Option ℝ :=
  match middleAt xs i, stdAt xs i with
  | some m, some s => some ((m : ℝ) - s * 2)
  | _, _ => none

/-- `data['Volume_SMA_20'] = data['Volume'].rolling(window=20).mean()` at
row `i`. -/
def volSma20At (df : List (ℚ × ℚ)) (i : ℕ) : Option ℚ := smaAt 20 (volumesOf df) i

/-- One enriched row of the output frame: the bar's own columns plus the
eleven attached indicator columns. -/
structure IndRow where
  close : ℚ
  volume : ℚ
  sma20 : Option ℚ
  sma50 : Option ℚ
  rsi : FV
  ema12 : Option ℚ
  ema26 : Option ℚ
  macd : Option ℚ
  signal : Option ℚ
  middle : Option ℚ
  upper : Option ℝ
  lower : Option ℝ
  vsma20 : Option ℚ

/-- The enriched row at input position `i`. -/
noncomputable def rowAt (df : List (ℚ × ℚ)) (i : ℕ) : IndRow :=
  { close := (df.getD i (0, 0)).1
    volume := (df.getD i (0, 0)).2
    sma20 := smaAt 20 (closesOf df) i
    sma50 := smaAt 50 (closesOf df) i
    rsi := rsiAt (closesOf df) i
    ema12 := ema12At (closesOf df) i
    ema26 := ema26At (closesOf df) i
    macd := macdAt (closesOf df) i
    signal := signalAt (closesOf df) i
    middle := middleAt (closesOf df) i
    upper := upperAt (closesOf df) i
    lower := lowerAt (closesOf df) i
    vsma20 := volSma20At df i }

/-- Whether row `i` survives `data.dropna(inplace=True)`: no attached column
holds NaN there (the Close and Volume columns are finite by the input
contract, so only the eleven derived columns matter). -/
noncomputable def rowDefinedB (df : List (ℚ × ℚ)) (i : ℕ) : Bool :=
  (smaAt 20 (closesOf df) i).isSome && (smaAt 50 (closesOf df) i).isSome &&
  !(rsiAt (closesOf df) i).isNaN &&
  (ema12At (closesOf df) i).isSome && (ema26At (closesOf df) i).isSome &&
  (macdAt (closesOf df) i).isSome && (signalAt (closesOf df) i).isSome &&
  (middleAt (closesOf df) i).isSome && (upperAt (closesOf df) i).isSome &&
  (lowerAt (closesOf df) i).isSome && (volSma20At df i).isSome

/-- The input positions that survive the trim (`dropna`). -/
noncomputable def trimmedIdx (df : List (ℚ × ℚ)) : List ℕ :=
  (List.range df.length).filter (rowDefinedB df)

/-- The trimmed, enriched frame the engine returns for a non-empty input. -/
noncomputable def trimmedRows (df : List (ℚ × ℚ)) : List IndRow :=
  (trimmedIdx df).map (rowAt df)

/-- The engine's result: either the input handed back unchanged with no
indicator column attached (the `data is None or data.empty` early return),
or the enriched and trimmed frame. -/
inductive EngineResult where
  | raw (d : Option (List (ℚ × ℚ))) : EngineResult
  | enriched (rows : List IndRow) : EngineResult

/-- `calculate_technical_indicators` (lines 22-64): early return on `None`
or an empty frame, otherwise attach the eleven indicator columns and drop
every row holding a NaN. -/
noncomputable def calculate_technical_indicators
    (data : Option (List (ℚ × ℚ))) : EngineResult :=
  match data with
  | none => .raw none
  | some [] => .raw (some [])
  | some df => .enriched (trimmedRows df)

/-!
Specification-side definitions (from the spec's words, for comparison with
the code-side definitions above).
-/

/-- The spec's EMA recurrence (§4.2): `EMA[0] = ys[0]`,
`EMA[i] = α·ys[i] + (1-α)·EMA[i-1]`. -/
def emaRec (α : ℚ) (ys : List ℚ) : ℕ → ℚ
  | 0 => ys.headD 0
  | i + 1 => α * ys.getD (i + 1) 0 + (1 - α) * emaRec α ys i

/-- The first differences `close[i+1] - close[i]`, one per `i+1 ≥ 1`. -/
def diffs (xs : List ℚ) : List ℚ := List.zipWith (fun a b => a - b) xs.tail xs

/-- The spec's gain magnitudes `max(delta, 0)` (§4.3 step 2), indexed from
the first delta. -/
def gainMags (xs : List ℚ) : List ℚ := (diffs xs).map (fun d => max d 0)

/-- The spec's loss magnitudes `max(-delta, 0)` (§4.3 step 2), indexed from
the first delta. -/
def lossMags (xs : List ℚ) : List ℚ := (diffs xs).map (fun d => max (-d) 0)

/-- The spec's arithmetic mean of the closes at positions `i-k+1 … i`
(§4.1). -/
def winMean (k : ℕ) (xs : List ℚ) (i : ℕ) : ℚ :=
  (((List.range k).map (fun j => xs.getD (i + 1 - k + j) 0)).sum) / (k : ℚ)

/-- The MACD series as the spec describes it: `EMA(close,12) - EMA(close,26)`
pointwise. -/
def macdSpec (xs : List ℚ) : List ℚ :=
  (List.range xs.length).map
    (fun j => emaRec (2 / ((12 : ℚ) + 1)) xs j - emaRec (2 / ((26 : ℚ) + 1)) xs j)

/-! Plumbing lemmas. -/

theorem getElem?_zipWith' {α β γ : Type} (f : α → β → γ) :
    ∀ (as : List α) (bs : List β) (i : ℕ),
      (List.zipWith f as bs)[i]? =
        match as[i]?, bs[i]? with
        | some a, some b => some (f a b)
        | _, _ => none
  | [], bs, i => by cases bs <;> cases i <;> simp
  | a :: as, [], i => by cases i <;> simp
  | a :: as, b :: bs, 0 => by simp
  | a :: as, b :: bs, i + 1 => by
      simpa using getElem?_zipWith' f as bs i

theorem rangeMap_getElem? {α : Type} (f : ℕ → α) (n i : ℕ) (h : i < n) :
    ((List.range n).map f)[i]? = some (f i) := by
  rw [List.getElem?_map, List.getElem?_range h, Option.map_some']

theorem rangeMap_length {α : Type} (f : ℕ → α) (n : ℕ) :
    ((List.range n).map f).length = n := by simp

theorem getD_eq_of_getElem? {α : Type} (l : List α) (i : ℕ) (a d : α)
    (h : l[i]? = some a) : l.getD i d = a := by
  simp [List.getD, h]

/-! `ewmAt` recurrence and its bridge to the spec's EMA recurrence. -/

theorem ewmAt_succ (α : ℚ) (xs : List (Option ℚ)) (i : ℕ) (h : i + 1 < xs.length) :
    ewmAt α xs (i + 1) = ewmStep α (ewmAt α xs i) (xs.getD (i + 1) none) := by
  have hx : xs[i + 1]? = some (xs.getD (i + 1) none) := by
    rw [List.getElem?_eq_getElem h]
    simp [List.getD, List.getElem?_eq_getElem h]
  rw [ewmAt, List.take_succ, hx]
  simp [List.foldl_append, ewmAt]

theorem ewmAt_cons_none_zero (α : ℚ) (l : List (Option ℚ)) :
    ewmAt α (none :: l) 0 = none := rfl

theorem ewmAt_cons_none_succ (α : ℚ) (l : List (Option ℚ)) (i : ℕ) :
    ewmAt α (none :: l) (i + 1) = ewmAt α l i := by
  rw [ewmAt, ewmAt, List.take_succ_cons]
  rfl

theorem ewmAt_map_some (α : ℚ) :
    ∀ (ys : List ℚ) (i : ℕ), i < ys.length →
      ewmAt α (ys.map some) i = some (emaRec α ys i) := by
  intro ys
  induction' ys with y t _
  · intro i hi; simp at hi
  · intro i
    induction' i with i ih
    · intro _
      simp [ewmAt, emaRec, ewmStep]
    · intro hi
      rw [ewmAt_succ α _ _ (by simpa using hi)]
      rw [ih (by omega)]
      have hget : ((y :: t).map some).getD (i + 1) none = some ((y :: t).getD (i + 1) 0) := by
        have h1 : ((y :: t).map some)[i + 1]? = some (some ((y :: t).getD (i + 1) 0)) := by
          rw [List.getElem?_map, List.getElem?_eq_getElem (by simpa using hi)]
          simp [List.getD, List.getElem?_eq_getElem (by simpa using hi)]
        exact getD_eq_of_getElem? _ _ _ _ h1
      rw [hget]
      simp [ewmStep, emaRec]

theorem ewmAt_nil (α : ℚ) (i : ℕ) : ewmAt α [] i = none := by
  simp [ewmAt]

/-! Structure of the gain / loss columns and the smoothed averages. -/

theorem diffs_getElem? (xs : List ℚ) (j : ℕ) (h : j + 1 < xs.length) :
    (diffs xs)[j]? = some (xs.getD (j + 1) 0 - xs.getD j 0) := by
  rw [diffs, getElem?_zipWith']
  have ht : xs.tail[j]? = some (xs.getD (j + 1) 0) := by
    rw [List.getElem?_tail, List.getElem?_eq_getElem h]
    simp [List.getD, List.getElem?_eq_getElem h]
  have hx : xs[j]? = some (xs.getD j 0) := by
    rw [List.getElem?_eq_getElem (by omega : j < xs.length)]
    simp [List.getD, List.getElem?_eq_getElem (by omega : j < xs.length)]
  rw [ht, hx]

theorem diffs_length (xs : List ℚ) : (diffs xs).length = xs.length - 1 := by
  simp [diffs]

theorem gainCol_eq (xs : List ℚ) (h : 1 ≤ xs.length) :
    gainCol xs = none :: (gainMags xs).map some := by
  rw [gainCol]
  apply List.ext_getElem?
  intro i
  match i with
  | 0 =>
    rw [rangeMap_getElem? _ _ _ (by omega)]
    simp [gainAt, deltaAt]
  | j + 1 =>
    by_cases hj : j + 1 < xs.length
    · rw [rangeMap_getElem? _ _ _ hj]
      have hd : (gainMags xs)[j]? = some (max (xs.getD (j + 1) 0 - xs.getD j 0) 0) := by
        rw [gainMags, List.getElem?_map, diffs_getElem? xs j hj, Option.map_some']
      simp only [List.getElem?_cons_succ, List.getElem?_map, hd]
      rw [gainAt, deltaAt]
      simp only [if_neg (by omega : ¬ j + 1 = 0)]
      have : (if xs.getD (j + 1) 0 - xs.getD (j + 1 - 1) 0 < 0 then (0:ℚ)
          else xs.getD (j + 1) 0 - xs.getD (j + 1 - 1) 0)
          = max (xs.getD (j + 1) 0 - xs.getD j 0) 0 := by
        have hidx : j + 1 - 1 = j := by omega
        rw [hidx]
        rcases lt_or_le (xs.getD (j + 1) 0 - xs.getD j 0) 0 with hlt | hle
        · rw [if_pos hlt, max_eq_right hlt.le]
        · rw [if_neg (not_lt.mpr hle), max_eq_left hle]
      rw [this]
      rfl
    · have h1 : ((List.range xs.length).map (gainAt xs))[j + 1]? = none := by
        rw [List.getElem?_eq_none]
        simpa using (by omega : xs.length ≤ j + 1)
      have h2 : (none :: (gainMags xs).map some)[j + 1]? = none := by
        rw [List.getElem?_cons_succ, List.getElem?_eq_none]
        simp [gainMags, diffs_length]
        omega
      rw [h1, h2]

theorem lossCol_eq (xs : List ℚ) (h : 1 ≤ xs.length) :
    lossCol xs = none :: ((diffs xs).map (fun d => min d 0)).map some := by
  rw [lossCol]
  apply List.ext_getElem?
  intro i
  match i with
  | 0 =>
    rw [rangeMap_getElem? _ _ _ (by omega)]
    simp [lossAt, deltaAt]
  | j + 1 =>
    by_cases hj : j + 1 < xs.length
    · rw [rangeMap_getElem? _ _ _ hj]
      have hd : ((diffs xs).map (fun d => min d 0))[j]?
          = some (min (xs.getD (j + 1) 0 - xs.getD j 0) 0) := by
        rw [List.getElem?_map, diffs_getElem? xs j hj, Option.map_some']
      simp only [List.getElem?_cons_succ, List.getElem?_map, hd]
      rw [lossAt, deltaAt]
      simp only [if_neg (by omega : ¬ j + 1 = 0)]
      have : (if 0 < xs.getD (j + 1) 0 - xs.getD (j + 1 - 1) 0 then (0:ℚ)
          else xs.getD (j + 1) 0 - xs.getD (j + 1 - 1) 0)
          = min (xs.getD (j + 1) 0 - xs.getD j 0) 0 := by
        have hidx : j + 1 - 1 = j := by omega
        rw [hidx]
        rcases lt_or_le 0 (xs.getD (j + 1) 0 - xs.getD j 0) with hlt | hle
        · rw [if_pos hlt, min_eq_right hlt.le]
        · rw [if_neg (not_lt.mpr hle), min_eq_left hle]
      rw [this]
      rfl
    · have h1 : ((List.range xs.length).map (lossAt xs))[j + 1]? = none := by
        rw [List.getElem?_eq_none]
        simpa using (by omega : xs.length ≤ j + 1)
      have h2 : (none :: ((diffs xs).map (fun d => min d 0)).map some)[j + 1]? = none := by
        rw [List.getElem?_cons_succ, List.getElem?_eq_none]
        simp [diffs_length]
        omega
      rw [h1, h2]

/-! Sign and linearity facts about the spec's EMA recurrence. -/

theorem getD_zero_or_mem (l : List ℚ) (i : ℕ) : l.getD i 0 = 0 ∨ l.getD i 0 ∈ l := by
  by_cases h : i < l.length
  · right
    rw [List.getD_eq_getElem _ _ h]
    exact List.getElem_mem h
  · left
    exact List.getD_eq_default _ _ (by omega)

theorem getD_map_comm (f : ℚ → ℚ) (hf : f 0 = 0) (l : List ℚ) (i : ℕ) :
    (l.map f).getD i 0 = f (l.getD i 0) := by
  by_cases h : i < l.length
  · rw [List.getD_eq_getElem _ _ (by simpa using h), List.getD_eq_getElem _ _ h,
      List.getElem_map]
  · rw [List.getD_eq_default _ _ (by simpa using h), List.getD_eq_default _ _ (by omega), hf]

theorem emaRec_map_neg (α : ℚ) (l : List ℚ) :
    ∀ i, emaRec α (l.map (fun x => -x)) i = -emaRec α l i := by
  intro i
  induction' i with i ih
  · rw [emaRec, emaRec]
    cases l with
    | nil => simp
    | cons x t => simp
  · rw [emaRec, emaRec, ih, getD_map_comm _ (by ring)]
    ring

theorem emaRec_nonneg (α : ℚ) (h0 : 0 ≤ α) (h1 : α ≤ 1) (l : List ℚ)
    (hl : ∀ x ∈ l, 0 ≤ x) : ∀ i, 0 ≤ emaRec α l i := by
  intro i
  induction' i with i ih
  · rw [emaRec]
    cases l with
    | nil => simp
    | cons x t => exact hl x (by simp)
  · rw [emaRec]
    have hx : 0 ≤ l.getD (i + 1) 0 := by
      rcases getD_zero_or_mem l (i + 1) with h | h
      · rw [h]
      · exact hl _ h
    have h2 := mul_nonneg h0 hx
    have h3 := mul_nonneg (by linarith : (0:ℚ) ≤ 1 - α) ih
    linarith

theorem emaRec_nonpos (α : ℚ) (h0 : 0 ≤ α) (h1 : α ≤ 1) (l : List ℚ)
    (hl : ∀ x ∈ l, x ≤ 0) : ∀ i, emaRec α l i ≤ 0 := by
  intro i
  induction' i with i ih
  · rw [emaRec]
    cases l with
    | nil => simp
    | cons x t => exact hl x (by simp)
  · rw [emaRec]
    have hx : l.getD (i + 1) 0 ≤ 0 := by
      rcases getD_zero_or_mem l (i + 1) with h | h
      · rw [h]
      · exact hl _ h
    have h2 := mul_nonpos_of_nonneg_of_nonpos h0 hx
    have h3 := mul_nonpos_of_nonneg_of_nonpos (by linarith : (0:ℚ) ≤ 1 - α) ih
    linarith

theorem emaRec_pos (α : ℚ) (h0 : 0 ≤ α) (h1 : α < 1) (l : List ℚ)
    (hl : ∀ x ∈ l, 0 ≤ x) (hh : 0 < l.headD 0) : ∀ i, 0 < emaRec α l i := by
  intro i
  induction' i with i ih
  · rw [emaRec]; exact hh
  · rw [emaRec]
    have hx : 0 ≤ l.getD (i + 1) 0 := by
      rcases getD_zero_or_mem l (i + 1) with h | h
      · rw [h]
      · exact hl _ h
    have h2 := mul_nonneg h0 hx
    have h3 := mul_pos (by linarith : (0:ℚ) < 1 - α) ih
    linarith

theorem emaRec_succ_zero (α : ℚ) (h0 : 0 < α) (h1 : α < 1) (l : List ℚ)
    (hl : ∀ x ∈ l, 0 ≤ x) (i : ℕ) (hz : emaRec α l (i + 1) = 0) :
    emaRec α l i = 0 := by
  rw [emaRec] at hz
  have hx : 0 ≤ l.getD (i + 1) 0 := by
    rcases getD_zero_or_mem l (i + 1) with h | h
    · rw [h]
    · exact hl _ h
  have he := emaRec_nonneg α (le_of_lt h0) (le_of_lt h1) l hl i
  have h2 := mul_nonneg (le_of_lt h0) hx
  have h3 := mul_nonneg (by linarith : (0:ℚ) ≤ 1 - α) he
  have h4 : (1 - α) * emaRec α l i = 0 := by linarith
  have h5 : (1 - α) ≠ 0 := by linarith
  exact (mul_eq_zero.mp h4).resolve_left h5

/-! The smoothed averages of the RSI computation. -/

theorem neg_min_zero_eq_max (d : ℚ) : -(min d 0) = max (-d) 0 := by
  rcases le_total d 0 with h | h
  · rw [min_eq_left h, max_eq_left (by linarith)]
  · rw [min_eq_right h, max_eq_right (by linarith)]
    ring

theorem lossMags_eq (xs : List ℚ) :
    lossMags xs = ((diffs xs).map (fun d => min d 0)).map (fun x => -x) := by
  rw [lossMags, List.map_map]
  apply List.map_congr_left
  intro d _
  simp only [Function.comp_apply]
  rw [neg_min_zero_eq_max]

theorem avgGainAt_zero (xs : List ℚ) : avgGainAt xs 0 = none := by
  cases xs with
  | nil =>
    rw [avgGainAt]
    have : gainCol [] = [] := by simp [gainCol]
    rw [this, ewmAt_nil]
  | cons x t =>
    rw [avgGainAt, gainCol_eq _ (by simp), ewmAt_cons_none_zero]

theorem avgLossAt_zero (xs : List ℚ) : avgLossAt xs 0 = none := by
  cases xs with
  | nil =>
    rw [avgLossAt]
    have : lossCol [] = [] := by simp [lossCol]
    rw [this, ewmAt_nil]
    rfl
  | cons x t =>
    rw [avgLossAt, lossCol_eq _ (by simp), ewmAt_cons_none_zero]
    rfl

theorem avgGainAt_succ (xs : List ℚ) (j : ℕ) (hj : j + 1 < xs.length) :
    avgGainAt xs (j + 1) = some (emaRec (2 / ((14 : ℚ) + 1)) (gainMags xs) j) := by
  rw [avgGainAt, gainCol_eq _ (by omega), ewmAt_cons_none_succ]
  exact ewmAt_map_some _ _ _ (by rw [gainMags, List.length_map, diffs_length]; omega)

theorem avgLossAt_succ (xs : List ℚ) (j : ℕ) (hj : j + 1 < xs.length) :
    avgLossAt xs (j + 1) = some (emaRec (2 / ((14 : ℚ) + 1)) (lossMags xs) j) := by
  rw [avgLossAt, lossCol_eq _ (by omega), ewmAt_cons_none_succ]
  rw [ewmAt_map_some _ _ _ (by rw [List.length_map, diffs_length]; omega)]
  rw [Option.map_some']
  have hle : emaRec (2 / ((14 : ℚ) + 1)) ((diffs xs).map (fun d => min d 0)) j ≤ 0 := by
    apply emaRec_nonpos _ (by norm_num) (by norm_num)
    intro x hx
    rcases List.mem_map.mp hx with ⟨d, _, hd⟩
    rw [← hd]
    exact min_le_right d 0
  rw [abs_of_nonpos hle, lossMags_eq, emaRec_map_neg]

theorem foldl_ewm_nonneg (α : ℚ) (h0 : 0 ≤ α) (h1 : α ≤ 1) :
    ∀ (l : List (Option ℚ)) (st : Option ℚ),
      (∀ s, st = some s → 0 ≤ s) →
      (∀ x ∈ l, ∀ q, x = some q → 0 ≤ q) →
      ∀ g, l.foldl (ewmStep α) st = some g → 0 ≤ g := by
  intro l
  induction' l with x t ih
  · intro st hst _ g hg
    exact hst g hg
  · intro st hst hent g hg
    rw [List.foldl_cons] at hg
    refine ih (ewmStep α st x) ?_ (fun y hy => hent y (by simp [hy])) g hg
    intro s hs
    rcases hx : x with _ | q
    · rcases hst' : st with _ | s0
      · rw [hst', hx] at hs; simp [ewmStep] at hs
      · rw [hst', hx] at hs
        simp only [ewmStep, Option.some_inj] at hs
        rw [← hs]
        exact hst s0 hst'
    · have hq : 0 ≤ q := hent x (by simp) q hx
      rcases hst' : st with _ | s0
      · rw [hst', hx] at hs
        simp only [ewmStep] at hs
        rw [Option.some_inj] at hs
        rw [← hs]; exact hq
      · have hs0 : 0 ≤ s0 := hst s0 hst'
        rw [hst', hx] at hs
        simp only [ewmStep] at hs
        rw [Option.some_inj] at hs
        rw [← hs]
        have := mul_nonneg h0 hq
        have := mul_nonneg (by linarith : (0:ℚ) ≤ 1 - α) hs0
        linarith

theorem gainCol_entry_nonneg (xs : List ℚ) :
    ∀ x ∈ gainCol xs, ∀ q, x = some q → 0 ≤ q := by
  intro x hx q hq
  rcases List.mem_map.mp hx with ⟨a, _, ha⟩
  rw [← ha] at hq
  rw [gainAt] at hq
  rcases hD : deltaAt xs a with _ | d
  · rw [hD] at hq; simp at hq
  · rw [hD] at hq
    simp only [Option.some_inj] at hq
    rw [← hq]
    split
    · rfl
    · exact le_of_not_lt (by assumption)

theorem avgGain_nonneg (xs : List ℚ) (i : ℕ) (g : ℚ)
    (hg : avgGainAt xs i = some g) : 0 ≤ g := by
  rw [avgGainAt, ewmAt] at hg
  refine foldl_ewm_nonneg _ (by norm_num) (by norm_num) _ none (by simp) ?_ g hg
  intro x hx
  exact gainCol_entry_nonneg xs x (List.take_subset _ _ hx)

theorem avgLoss_nonneg (xs : List ℚ) (i : ℕ) (l : ℚ)
    (hl : avgLossAt xs i = some l) : 0 ≤ l := by
  rw [avgLossAt] at hl
  rcases he : ewmAt (2 / ((14 : ℚ) + 1)) (lossCol xs) i with _ | y
  · rw [he] at hl; simp at hl
  · rw [he, Option.map_some', Option.some_inj] at hl
    rw [← hl]
    exact abs_nonneg y

/-! The RSI value as a function of the smoothed averages. -/

theorem rsi_formula (xs : List ℚ) (i : ℕ) (g l : ℚ) (hg : avgGainAt xs i = some g)
    (hl : avgLossAt xs i = some l) :
    rsiAt xs i = if l = 0 then (if g = 0 then FV.nan else FV.num 100)
      else FV.num (100 - 100 / (1 + g / l)) := by
  have hg0 := avgGain_nonneg xs i g hg
  have hl0 := avgLoss_nonneg xs i l hl
  rw [rsiAt, rsAt, hg, hl]
  by_cases hlz : l = 0
  · subst hlz
    by_cases hgz : g = 0
    · subst hgz
      simp [FV.ofOpt, FV.div, FV.add, FV.sub, FV.neg]
    · have hgpos : 0 < g := lt_of_le_of_ne hg0 (Ne.symm hgz)
      rw [if_pos rfl, if_neg hgz]
      simp only [FV.ofOpt, FV.div, FV.add, FV.sub, FV.neg, if_pos rfl, if_neg hgz,
        if_pos hgpos]
      norm_num
  · have hlpos : 0 < l := lt_of_le_of_ne hl0 (Ne.symm hlz)
    have hq0 : 0 ≤ g / l := div_nonneg hg0 (le_of_lt hlpos)
    have h1q : 1 + g / l ≠ 0 := by positivity
    rw [if_neg hlz]
    simp only [FV.ofOpt, FV.div, FV.add, FV.sub, FV.neg, if_neg hlz, if_neg h1q]
    congr 1
    ring

theorem rsiAt_zero (xs : List ℚ) : rsiAt xs 0 = FV.nan := by
  rw [rsiAt, rsAt, avgGainAt_zero, avgLossAt_zero]
  rfl

theorem rsiAt_ne_nan_of (xs : List ℚ) (i : ℕ) (g l : ℚ) (hg : avgGainAt xs i = some g)
    (hl : avgLossAt xs i = some l) (hne : ¬(g = 0 ∧ l = 0)) : rsiAt xs i ≠ FV.nan := by
  rw [rsi_formula xs i g l hg hl]
  by_cases hlz : l = 0
  · have hgz : ¬ g = 0 := fun h => hne ⟨h, hlz⟩
    rw [if_pos hlz, if_neg hgz]
    intro h
    exact FV.noConfusion h
  · rw [if_neg hlz]
    intro h
    exact FV.noConfusion h

theorem rsiAt_nan_both_zero (xs : List ℚ) (i : ℕ) (g l : ℚ) (hg : avgGainAt xs i = some g)
    (hl : avgLossAt xs i = some l) (h : rsiAt xs i = FV.nan) : g = 0 ∧ l = 0 := by
  by_contra hne
  exact rsiAt_ne_nan_of xs i g l hg hl hne h

/-! EMA / MACD / Signal column lemmas. -/

theorem ema12At_eq (xs : List ℚ) (i : ℕ) (hi : i < xs.length) :
    ema12At xs i = some (emaRec (2 / ((12 : ℚ) + 1)) xs i) := by
  rw [ema12At, emaSpanAt, ewmAt_map_some _ _ _ hi]
  norm_num

theorem ema26At_eq (xs : List ℚ) (i : ℕ) (hi : i < xs.length) :
    ema26At xs i = some (emaRec (2 / ((26 : ℚ) + 1)) xs i) := by
  rw [ema26At, emaSpanAt, ewmAt_map_some _ _ _ hi]
  norm_num

theorem macdAt_eq (xs : List ℚ) (i : ℕ) (hi : i < xs.length) :
    macdAt xs i
      = some (emaRec (2 / ((12 : ℚ) + 1)) xs i - emaRec (2 / ((26 : ℚ) + 1)) xs i) := by
  rw [macdAt, ema12At_eq xs i hi, ema26At_eq xs i hi]
  rfl

theorem macdCol_eq (xs : List ℚ) : macdCol xs = (macdSpec xs).map some := by
  rw [macdCol, macdSpec, List.map_map]
  apply List.map_congr_left
  intro i hi
  rw [Function.comp_apply, macdAt_eq xs i (List.mem_range.mp hi)]

theorem macdSpec_length (xs : List ℚ) : (macdSpec xs).length = xs.length := by
  simp [macdSpec]

theorem signalAt_eq (xs : List ℚ) (i : ℕ) (hi : i < xs.length) :
    signalAt xs i = some (emaRec (2 / ((9 : ℚ) + 1)) (macdSpec xs) i) := by
  rw [signalAt, macdCol_eq, ewmAt_map_some _ _ _ (by rw [macdSpec_length]; exact hi)]

/-! Rolling-window lemmas. -/

theorem smaAt_defined (k : ℕ) (xs : List ℚ) (i : ℕ) (hk : k ≤ i + 1) :
    smaAt k xs i = some ((window k xs i).sum / (k : ℚ)) := by
  rw [smaAt, if_neg (by omega)]

theorem smaAt_undefined (k : ℕ) (xs : List ℚ) (i : ℕ) (hk : i + 1 < k) :
    smaAt k xs i = none := by
  rw [smaAt, if_pos hk]

theorem window_eq_map (k : ℕ) (xs : List ℚ) (i : ℕ) (hi : i < xs.length) (hk : k ≤ i + 1) :
    window k xs i = (List.range k).map (fun j => xs.getD (i + 1 - k + j) 0) := by
  apply List.ext_getElem?
  intro j
  rw [window, List.getElem?_drop, List.getElem?_take]
  by_cases hj : j < k
  · rw [if_pos (by omega), rangeMap_getElem? _ _ _ hj]
    have hb : i + 1 - k + j < xs.length := by omega
    rw [List.getElem?_eq_getElem hb]
    rw [List.getD_eq_getElem _ _ hb]
  · rw [if_neg (by omega)]
    rw [List.getElem?_eq_none (by simp; omega)]

theorem var20At_defined (xs : List ℚ) (i : ℕ) (h : 20 ≤ i + 1) :
    var20At xs i
      = some (((window 20 xs i).map (fun x => (x - (window 20 xs i).sum / 20) ^ 2)).sum / 19) := by
  rw [var20At, if_neg (by omega)]

theorem upperAt_isSome (xs : List ℚ) (i : ℕ) (h : 20 ≤ i + 1) :
    (upperAt xs i).isSome = true := by
  rw [upperAt, middleAt, smaAt_defined _ _ _ h, stdAt, var20At_defined _ _ h]
  rfl

theorem lowerAt_isSome (xs : List ℚ) (i : ℕ) (h : 20 ≤ i + 1) :
    (lowerAt xs i).isSome = true := by
  rw [lowerAt, middleAt, smaAt_defined _ _ _ h, stdAt, var20At_defined _ _ h]
  rfl

/-! Trim lemmas. -/

theorem not_isNaN_iff (v : FV) : (!v.isNaN) = true ↔ v ≠ FV.nan := by
  cases v <;> simp [FV.isNaN]

theorem mem_trimmedIdx (df : List (ℚ × ℚ)) (i : ℕ) :
    i ∈ trimmedIdx df ↔ i < df.length ∧ rowDefinedB df i = true := by
  rw [trimmedIdx, List.mem_filter, List.mem_range]

theorem rowDefinedB_iff (df : List (ℚ × ℚ)) (i : ℕ) :
    rowDefinedB df i = true ↔
      ((smaAt 20 (closesOf df) i).isSome = true ∧ (smaAt 50 (closesOf df) i).isSome = true ∧
       rsiAt (closesOf df) i ≠ FV.nan ∧
       (ema12At (closesOf df) i).isSome = true ∧ (ema26At (closesOf df) i).isSome = true ∧
       (macdAt (closesOf df) i).isSome = true ∧ (signalAt (closesOf df) i).isSome = true ∧
       (middleAt (closesOf df) i).isSome = true ∧ (upperAt (closesOf df) i).isSome = true ∧
       (lowerAt (closesOf df) i).isSome = true ∧ (volSma20At df i).isSome = true) := by
  rw [rowDefinedB]
  simp only [Bool.and_eq_true, not_isNaN_iff]
  tauto

/-! Monotonicity of row-definedness: the machinery behind the
contiguous-suffix property of the trim. -/

theorem closesOf_length (df : List (ℚ × ℚ)) : (closesOf df).length = df.length := by
  simp [closesOf]

theorem volumesOf_length (df : List (ℚ × ℚ)) : (volumesOf df).length = df.length := by
  simp [volumesOf]

theorem gainMags_nonneg (xs : List ℚ) : ∀ x ∈ gainMags xs, 0 ≤ x := by
  intro x hx
  rcases List.mem_map.mp hx with ⟨d, _, hd⟩
  rw [← hd]
  exact le_max_right d 0

theorem lossMags_nonneg (xs : List ℚ) : ∀ x ∈ lossMags xs, 0 ≤ x := by
  intro x hx
  rcases List.mem_map.mp hx with ⟨d, _, hd⟩
  rw [← hd]
  exact le_max_right (-d) 0

theorem notBothZero_mono (xs : List ℚ) (k k' : ℕ) (hkk : k ≤ k')
    (h : ¬(emaRec (2 / ((14 : ℚ) + 1)) (gainMags xs) k = 0 ∧
           emaRec (2 / ((14 : ℚ) + 1)) (lossMags xs) k = 0)) :
    ¬(emaRec (2 / ((14 : ℚ) + 1)) (gainMags xs) k' = 0 ∧
      emaRec (2 / ((14 : ℚ) + 1)) (lossMags xs) k' = 0) := by
  induction' hkk with m hm ih
  · exact h
  · intro hboth
    apply ih
    constructor
    · exact emaRec_succ_zero _ (by norm_num) (by norm_num) _ (gainMags_nonneg xs) m hboth.1
    · exact emaRec_succ_zero _ (by norm_num) (by norm_num) _ (lossMags_nonneg xs) m hboth.2

theorem sma_isSome_ge (k : ℕ) (xs : List ℚ) (i : ℕ) (hk : k ≤ i + 1) :
    (smaAt k xs i).isSome = true := by
  rw [smaAt_defined _ _ _ hk]
  rfl

theorem sma_ge_of_isSome (k : ℕ) (xs : List ℚ) (i : ℕ)
    (h : (smaAt k xs i).isSome = true) : k ≤ i + 1 := by
  by_contra hlt
  rw [smaAt_undefined _ _ _ (by omega)] at h
  simp at h

theorem rowDefinedB_mono (df : List (ℚ × ℚ)) (i j : ℕ) (hij : i ≤ j)
    (hj : j < df.length) (h : rowDefinedB df i = true) : rowDefinedB df j = true := by
  have hcl : (closesOf df).length = df.length := closesOf_length df
  have hvl : (volumesOf df).length = df.length := volumesOf_length df
  rcases (rowDefinedB_iff df i).mp h with
    ⟨_, h50, hrsi, _, _, _, _, _, _, _, _⟩
  have hi50 : 50 ≤ i + 1 := sma_ge_of_isSome _ _ _ h50
  have hi1 : 1 ≤ i := by omega
  have hjn : j < (closesOf df).length := by omega
  have hin : i < (closesOf df).length := by omega
  -- the RSI component
  have hgi := avgGainAt_succ (closesOf df) (i - 1) (by omega)
  have hli := avgLossAt_succ (closesOf df) (i - 1) (by omega)
  rw [(by omega : i - 1 + 1 = i)] at hgi hli
  have hnb : ¬(emaRec (2 / ((14 : ℚ) + 1)) (gainMags (closesOf df)) (i - 1) = 0 ∧
      emaRec (2 / ((14 : ℚ) + 1)) (lossMags (closesOf df)) (i - 1) = 0) := by
    intro hboth
    apply hrsi
    rw [rsi_formula _ _ _ _ hgi hli, if_pos hboth.2, if_pos hboth.1]
  have hnbj := notBothZero_mono (closesOf df) (i - 1) (j - 1) (by omega) hnb
  have hgj := avgGainAt_succ (closesOf df) (j - 1) (by omega)
  have hlj := avgLossAt_succ (closesOf df) (j - 1) (by omega)
  rw [(by omega : j - 1 + 1 = j)] at hgj hlj
  have hrsij : rsiAt (closesOf df) j ≠ FV.nan :=
    rsiAt_ne_nan_of _ _ _ _ hgj hlj hnbj
  -- assemble
  apply (rowDefinedB_iff df j).mpr
  refine ⟨sma_isSome_ge 20 _ j (by omega), sma_isSome_ge 50 _ j (by omega), hrsij,
    ?_, ?_, ?_, ?_, sma_isSome_ge 20 _ j (by omega), upperAt_isSome _ j (by omega),
    lowerAt_isSome _ j (by omega), sma_isSome_ge 20 _ j (by omega)⟩
  · rw [ema12At_eq _ _ hjn]; rfl
  · rw [ema26At_eq _ _ hjn]; rfl
  · rw [macdAt_eq _ _ hjn]; rfl
  · rw [signalAt_eq _ _ hjn]; rfl

theorem trimmedIdx_empty_of_short (df : List (ℚ × ℚ)) (h : df.length < 50) :
    trimmedIdx df = [] := by
  rw [trimmedIdx]
  apply List.filter_eq_nil_iff.mpr
  intro i hi
  have hin : i < df.length := List.mem_range.mp hi
  intro hb
  rcases (rowDefinedB_iff df i).mp hb with ⟨_, h50, _⟩
  have := sma_ge_of_isSome _ _ _ h50
  omega

/-! Concrete evaluations used by the RSI claims. -/

theorem avgGain_eval_12 : avgGainAt [1, 2] 1 = some 1 := by
  have h := avgGainAt_succ [1, 2] 0 (by norm_num)
  have hm : gainMags [1, 2] = [1] := by
    norm_num [gainMags, diffs]
  rw [hm] at h
  simpa [emaRec] using h

theorem avgLoss_eval_12 : avgLossAt [1, 2] 1 = some 0 := by
  have h := avgLossAt_succ [1, 2] 0 (by norm_num)
  have hm : lossMags [1, 2] = [0] := by
    norm_num [lossMags, diffs]
  rw [hm] at h
  simpa [emaRec] using h

theorem avgGain_eval_555 : avgGainAt [5, 5, 5] 2 = some 0 := by
  have h := avgGainAt_succ [5, 5, 5] 1 (by norm_num)
  have hm : gainMags [5, 5, 5] = [0, 0] := by
    norm_num [gainMags, diffs]
  rw [hm] at h
  simpa [emaRec] using h

theorem avgLoss_eval_555 : avgLossAt [5, 5, 5] 2 = some 0 := by
  have h := avgLossAt_succ [5, 5, 5] 1 (by norm_num)
  have hm : lossMags [5, 5, 5] = [0, 0] := by
    norm_num [lossMags, diffs]
  rw [hm] at h
  simpa [emaRec] using h

/-! The claims. -/

/-- Claim C1: for every close series and window size k ≥ 1, the SMA transform
returns a column of the same length, undefined exactly on the warm-up prefix
`i < k-1`, and equal to the arithmetic mean of the closes at positions
`i-k+1 … i` from position `k-1` on; the engine applies it with k = 20 and
k = 50 to the close column and k = 20 to the volume column. -/
theorem sma_contract (xs : List ℚ) (k i : ℕ) (hk : 1 ≤ k) (hi : i < xs.length) :
    (smaCol k xs).length = xs.length ∧
    (i < k - 1 → (smaCol k xs)[i]? = some none) ∧
    (k - 1 ≤ i → (smaCol k xs)[i]? = some (some (winMean k xs i))) ∧
    (∀ (df : List (ℚ × ℚ)) (j : ℕ),
      (rowAt df j).sma20 = smaAt 20 (closesOf df) j ∧
      (rowAt df j).sma50 = smaAt 50 (closesOf df) j ∧
      (rowAt df j).vsma20 = smaAt 20 (volumesOf df) j) := by
  refine ⟨rangeMap_length _ _, ?_, ?_, fun df j => ⟨rfl, rfl, rfl⟩⟩
  · intro hlt
    rw [smaCol, rangeMap_getElem? _ _ _ hi, smaAt_undefined _ _ _ (by omega)]
  · intro hge
    rw [smaCol, rangeMap_getElem? _ _ _ hi, smaAt_defined _ _ _ (by omega)]
    rw [window_eq_map _ _ _ hi (by omega), winMean]

/-- Witness for C1 at xs = [1,2,3], k = 2, i = 1: both hypotheses hold and
position 1 carries the mean of closes 0 and 1. -/
theorem sma_contract_witness :
    (1 ≤ 2 ∧ 1 < ([1, 2, 3] : List ℚ).length) ∧
    (2 - 1 ≤ 1 → (smaCol 2 [1, 2, 3])[1]? = some (some (winMean 2 [1, 2, 3] 1))) :=
  ⟨⟨by norm_num, by norm_num⟩,
    (sma_contract [1, 2, 3] 2 1 (by norm_num) (by norm_num)).2.2.1⟩

/-- Claim C2: on a non-empty close series the engine's `ewm(span=k,
adjust=False)` mean equals the spec recurrence `EMA[0] = close[0]`,
`EMA[i] = α·close[i] + (1-α)·EMA[i-1]` with `α = 2/(k+1)`, so the EMA
columns, the MACD line `EMA12 - EMA26`, and the Signal line (the same
recurrence over the MACD series) are defined at every position from index 0
onward. -/
theorem ema_macd_contract (closes : List ℚ) (hne : closes ≠ []) (span i : ℕ)
    (hi : i < closes.length) :
    emaSpanAt span closes i = some (emaRec (2 / ((span : ℚ) + 1)) closes i) ∧
    emaRec (2 / ((span : ℚ) + 1)) closes 0 = closes.headD 0 ∧
    (∀ j : ℕ, emaRec (2 / ((span : ℚ) + 1)) closes (j + 1)
      = 2 / ((span : ℚ) + 1) * closes.getD (j + 1) 0
        + (1 - 2 / ((span : ℚ) + 1)) * emaRec (2 / ((span : ℚ) + 1)) closes j) ∧
    ema12At closes i = some (emaRec (2 / ((12 : ℚ) + 1)) closes i) ∧
    ema26At closes i = some (emaRec (2 / ((26 : ℚ) + 1)) closes i) ∧
    macdAt closes i
      = some (emaRec (2 / ((12 : ℚ) + 1)) closes i - emaRec (2 / ((26 : ℚ) + 1)) closes i) ∧
    signalAt closes i = some (emaRec (2 / ((9 : ℚ) + 1)) (macdSpec closes) i) := by
  refine ⟨?_, rfl, fun j => rfl, ema12At_eq _ _ hi, ema26At_eq _ _ hi,
    macdAt_eq _ _ hi, signalAt_eq _ _ hi⟩
  rw [emaSpanAt, ewmAt_map_some _ _ _ hi]

/-- Witness for C2 at closes = [1,2], span = 12, i = 1. -/
theorem ema_macd_contract_witness :
    (([1, 2] : List ℚ) ≠ [] ∧ 1 < ([1, 2] : List ℚ).length) ∧
    emaSpanAt 12 [1, 2] 1 = some (emaRec (2 / (((12 : ℕ) : ℚ) + 1)) [1, 2] 1) :=
  ⟨⟨by simp, by norm_num⟩, (ema_macd_contract [1, 2] (by simp) 12 1 (by norm_num)).1⟩

/-- Claim C3: for a close series of length ≥ 2 the smoothed average gain and
average loss of the RSI computation are undefined at index 0 and, from
index 1 on, equal the §4.2 EMA recurrence with α = 2/15 applied to the
non-negative magnitudes `max(delta, 0)` and `max(-delta, 0)` of the first
differences, seeded at the first delta. -/
theorem rsi_smoothing_contract (xs : List ℚ) (h2 : 2 ≤ xs.length) :
    avgGainAt xs 0 = none ∧ avgLossAt xs 0 = none ∧
    (∀ i, 1 ≤ i → i < xs.length →
      avgGainAt xs i = some (emaRec (2 / ((14 : ℚ) + 1)) (gainMags xs) (i - 1)) ∧
      avgLossAt xs i = some (emaRec (2 / ((14 : ℚ) + 1)) (lossMags xs) (i - 1))) := by
  refine ⟨avgGainAt_zero xs, avgLossAt_zero xs, ?_⟩
  intro i h1 hi
  have hg := avgGainAt_succ xs (i - 1) (by omega)
  have hl := avgLossAt_succ xs (i - 1) (by omega)
  rw [(by omega : i - 1 + 1 = i)] at hg hl
  exact ⟨hg, hl⟩

/-- Witness for C3 at xs = [1,3,2]. -/
theorem rsi_smoothing_contract_witness :
    2 ≤ ([1, 3, 2] : List ℚ).length ∧ avgGainAt [1, 3, 2] 0 = none :=
  ⟨by norm_num, (rsi_smoothing_contract [1, 3, 2] (by norm_num)).1⟩

/-- Counterexample to C4 as stated: on closes = [1,2] the average loss at
index 1 is 0 with a positive average gain, and the code's raw division does
produce an infinite RS value (there is no explicit special case); the
reported RSI is nevertheless exactly 100. -/
theorem rsi_raw_division_inf :
    avgGainAt [1, 2] 1 = some 1 ∧ avgLossAt [1, 2] 1 = some 0 ∧
    rsAt [1, 2] 1 = FV.inf ∧ rsiAt [1, 2] 1 = FV.num 100 := by
  refine ⟨avgGain_eval_12, avgLoss_eval_12, ?_, ?_⟩
  · rw [rsAt, avgGain_eval_12, avgLoss_eval_12]
    simp only [FV.ofOpt, FV.div, if_pos rfl]
    norm_num
  · rw [rsi_formula [1, 2] 1 1 0 avgGain_eval_12 avgLoss_eval_12, if_pos rfl,
      if_neg (by norm_num)]

/-- Claim C4, amended: whenever the smoothed average loss is 0 and the
average gain is positive, the RSI is reported as exactly 100 — but this
happens through the raw division producing an infinite RS which the formula
`100 - 100/(1+RS)` collapses to 100, not through an explicit special case. -/
theorem rsi_zero_loss_is_100 (xs : List ℚ) (i : ℕ) (g : ℚ)
    (hg : avgGainAt xs i = some g) (hl : avgLossAt xs i = some 0) (hgpos : 0 < g) :
    rsAt xs i = FV.inf ∧ rsiAt xs i = FV.num 100 := by
  have hgz : ¬ g = 0 := by
    intro h
    rw [h] at hgpos
    exact lt_irrefl 0 hgpos
  constructor
  · rw [rsAt, hg, hl]
    simp only [FV.ofOpt, FV.div]
    simp only [if_true, eq_self_iff_true]
    rw [if_neg hgz, if_pos hgpos]
  · rw [rsi_formula xs i g 0 hg hl, if_pos rfl, if_neg hgz]

/-- Witness for the amended C4 at closes = [3,7], i = 1. -/
theorem rsi_zero_loss_is_100_witness :
    (avgGainAt [3, 7] 1 = some 4 ∧ avgLossAt [3, 7] 1 = some 0 ∧ (0 : ℚ) < 4) ∧
    rsiAt [3, 7] 1 = FV.num 100 := by
  have hg : avgGainAt [3, 7] 1 = some 4 := by
    have h := avgGainAt_succ [3, 7] 0 (by norm_num)
    have hm : gainMags [3, 7] = [4] := by simp [gainMags, diffs]; norm_num
    rw [hm] at h
    simpa [emaRec] using h
  have hl : avgLossAt [3, 7] 1 = some 0 := by
    have h := avgLossAt_succ [3, 7] 0 (by norm_num)
    have hm : lossMags [3, 7] = [0] := by simp [lossMags, diffs]; norm_num
    rw [hm] at h
    simpa [emaRec] using h
  exact ⟨⟨hg, hl, by norm_num⟩, (rsi_zero_loss_is_100 [3, 7] 1 4 hg hl (by norm_num)).2⟩

/-- Counterexample to C5 as stated: on the constant run [5,5,5] both smoothed
averages are 0 at index 2 and the RSI there is NaN — it is neither 0 nor in
[0, 100]. -/
theorem rsi_nan_constant_run :
    avgGainAt [5, 5, 5] 2 = some 0 ∧ avgLossAt [5, 5, 5] 2 = some 0 ∧
    rsiAt [5, 5, 5] 2 = FV.nan ∧ ∀ r : ℚ, rsiAt [5, 5, 5] 2 ≠ FV.num r := by
  have hnan : rsiAt [5, 5, 5] 2 = FV.nan := by
    rw [rsi_formula [5, 5, 5] 2 0 0 avgGain_eval_555 avgLoss_eval_555, if_pos rfl, if_pos rfl]
  refine ⟨avgGain_eval_555, avgLoss_eval_555, hnan, ?_⟩
  intro r h
  rw [hnan] at h
  exact FV.noConfusion h

/-- Claim C5, amended: at every position where the smoothed averages are
defined and not both zero, the RSI is a finite value in [0, 100], equal to
100 exactly when the average loss is 0 (with positive gain) and equal to 0
exactly when the average gain is 0; when both averages vanish (a
constant-price run) the RSI is NaN instead. -/
theorem rsi_range_bounds (xs : List ℚ) (i : ℕ) (g l : ℚ)
    (hg : avgGainAt xs i = some g) (hl : avgLossAt xs i = some l)
    (hne : ¬(g = 0 ∧ l = 0)) :
    ∃ r : ℚ, rsiAt xs i = FV.num r ∧ 0 ≤ r ∧ r ≤ 100 ∧
      (r = 100 ↔ l = 0) ∧ (r = 0 ↔ g = 0) := by
  have hg0 := avgGain_nonneg xs i g hg
  have hl0 := avgLoss_nonneg xs i l hl
  rw [rsi_formula xs i g l hg hl]
  by_cases hlz : l = 0
  · have hgz : g ≠ 0 := fun h => hne ⟨h, hlz⟩
    rw [if_pos hlz, if_neg hgz]
    exact ⟨100, rfl, by norm_num, le_refl _, iff_of_true rfl hlz,
      iff_of_false (by norm_num) hgz⟩
  · have hlpos : 0 < l := lt_of_le_of_ne hl0 (Ne.symm hlz)
    have hq0 : 0 ≤ g / l := div_nonneg hg0 (le_of_lt hlpos)
    have h1q : (0 : ℚ) < 1 + g / l := by linarith
    have hdpos : 0 < 100 / (1 + g / l) := by positivity
    have hdle : 100 / (1 + g / l) ≤ 100 := by
      rw [div_le_iff₀ h1q]
      nlinarith
    rw [if_neg hlz]
    refine ⟨100 - 100 / (1 + g / l), rfl, by linarith, by linarith, ?_, ?_⟩
    · exact iff_of_false (by intro h; linarith) hlz
    · constructor
      · intro h
        have hdiv : 100 / (1 + g / l) = 100 := by linarith
        have h1 : (100 : ℚ) = 100 * (1 + g / l) := (div_eq_iff (ne_of_gt h1q)).mp hdiv
        have hq : g / l = 0 := by linarith
        rcases div_eq_zero_iff.mp hq with hgq | hlq
        · exact hgq
        · exact absurd hlq hlz
      · intro h
        rw [h, zero_div]
        norm_num

/-- Witness for the amended C5 at closes = [1,2], i = 1 (loss 0, gain 1). -/
theorem rsi_range_bounds_witness :
    (avgGainAt [1, 2] 1 = some 1 ∧ avgLossAt [1, 2] 1 = some 0 ∧
      ¬((1 : ℚ) = 0 ∧ (0 : ℚ) = 0)) ∧
    (∃ r : ℚ, rsiAt [1, 2] 1 = FV.num r ∧ 0 ≤ r ∧ r ≤ 100 ∧
      (r = 100 ↔ (0 : ℚ) = 0) ∧ (r = 0 ↔ (1 : ℚ) = 0)) :=
  ⟨⟨avgGain_eval_12, avgLoss_eval_12, by norm_num⟩,
    rsi_range_bounds [1, 2] 1 1 0 avgGain_eval_12 avgLoss_eval_12 (by norm_num)⟩

/-- Claim C6: wherever the Bollinger columns are defined, the upper and
lower bands are the middle band plus and minus twice the rolling sample
standard deviation, their difference is 4·stddev, and the middle band lies
between them with equality exactly when the standard deviation is 0. -/
theorem bollinger_band_algebra (closes : List ℚ) (i : ℕ) (m v : ℚ)
    (hm : middleAt closes i = some m) (hv : var20At closes i = some v) :
    stdAt closes i = some (Real.sqrt (v : ℝ)) ∧
    upperAt closes i = some ((m : ℝ) + Real.sqrt (v : ℝ) * 2) ∧
    lowerAt closes i = some ((m : ℝ) - Real.sqrt (v : ℝ) * 2) ∧
    ((m : ℝ) + Real.sqrt (v : ℝ) * 2) - ((m : ℝ) - Real.sqrt (v : ℝ) * 2)
      = 4 * Real.sqrt (v : ℝ) ∧
    (m : ℝ) - Real.sqrt (v : ℝ) * 2 ≤ (m : ℝ) ∧
    (m : ℝ) ≤ (m : ℝ) + Real.sqrt (v : ℝ) * 2 ∧
    ((m : ℝ) + Real.sqrt (v : ℝ) * 2 = (m : ℝ) ↔ Real.sqrt (v : ℝ) = 0) ∧
    ((m : ℝ) - Real.sqrt (v : ℝ) * 2 = (m : ℝ) ↔ Real.sqrt (v : ℝ) = 0) := by
  have hs : stdAt closes i = some (Real.sqrt (v : ℝ)) := by
    rw [stdAt, hv, Option.map_some']
  have hsq : 0 ≤ Real.sqrt (v : ℝ) := Real.sqrt_nonneg _
  refine ⟨hs, ?_, ?_, by ring, by linarith, by linarith, ?_, ?_⟩
  · rw [upperAt, hm, hs]
  · rw [lowerAt, hm, hs]
  · constructor
    · intro h; linarith
    · intro h; rw [h]; ring
  · constructor
    · intro h; linarith
    · intro h; rw [h]; ring

/-- Witness for C6 at a constant 20-bar window (middle 3, variance 0). -/
theorem bollinger_band_algebra_witness :
    (middleAt (List.replicate 20 (3 : ℚ)) 19 = some 3 ∧
      var20At (List.replicate 20 (3 : ℚ)) 19 = some 0) ∧
    upperAt (List.replicate 20 (3 : ℚ)) 19
      = some (((3 : ℚ) : ℝ) + Real.sqrt ((0 : ℚ) : ℝ) * 2) := by
  have hm : middleAt (List.replicate 20 (3 : ℚ)) 19 = some 3 := by
    simp [middleAt, smaAt, window, List.take_replicate, List.drop_replicate,
      List.sum_replicate]
    norm_num
  have hv : var20At (List.replicate 20 (3 : ℚ)) 19 = some 0 := by
    simp [var20At, window, List.take_replicate, List.drop_replicate,
      List.sum_replicate, List.map_replicate]
    norm_num
  exact ⟨⟨hm, hv⟩, (bollinger_band_algebra _ 19 3 0 hm hv).2.1⟩

/-- Claim C7: a position survives the trim exactly when every attached
indicator column is defined (not NaN) there, every surviving row is fully
dense, and an input shorter than the longest window (50 bars) trims to the
empty frame. -/
theorem trim_exact (df : List (ℚ × ℚ)) (i : ℕ) :
    (i ∈ trimmedIdx df ↔ i < df.length ∧
      ((smaAt 20 (closesOf df) i).isSome = true ∧ (smaAt 50 (closesOf df) i).isSome = true ∧
       rsiAt (closesOf df) i ≠ FV.nan ∧ (ema12At (closesOf df) i).isSome = true ∧
       (ema26At (closesOf df) i).isSome = true ∧ (macdAt (closesOf df) i).isSome = true ∧
       (signalAt (closesOf df) i).isSome = true ∧ (middleAt (closesOf df) i).isSome = true ∧
       (upperAt (closesOf df) i).isSome = true ∧ (lowerAt (closesOf df) i).isSome = true ∧
       (volSma20At df i).isSome = true)) ∧
    (∀ r ∈ trimmedRows df, r.sma20.isSome = true ∧ r.sma50.isSome = true ∧
      r.rsi ≠ FV.nan ∧ r.ema12.isSome = true ∧ r.ema26.isSome = true ∧
      r.macd.isSome = true ∧ r.signal.isSome = true ∧ r.middle.isSome = true ∧
      r.upper.isSome = true ∧ r.lower.isSome = true ∧ r.vsma20.isSome = true) ∧
    (df.length < 50 → trimmedRows df = []) := by
  refine ⟨?_, ?_, ?_⟩
  · rw [mem_trimmedIdx, rowDefinedB_iff]
  · intro r hr
    rcases List.mem_map.mp hr with ⟨idx, hidx, hrow⟩
    rcases (mem_trimmedIdx df idx).mp hidx with ⟨_, hb⟩
    rcases (rowDefinedB_iff df idx).mp hb with
      ⟨a1, a2, a3, a4, a5, a6, a7, a8, a9, a10, a11⟩
    rw [← hrow]
    exact ⟨a1, a2, a3, a4, a5, a6, a7, a8, a9, a10, a11⟩
  · intro h
    rw [trimmedRows, trimmedIdx_empty_of_short df h]
    rfl

/-- Witness for C7: a 5-bar input is shorter than the longest window and
trims to the empty frame. -/
theorem trim_exact_witness :
    (List.replicate 5 ((1 : ℚ), (1 : ℚ))).length < 50 ∧
    trimmedRows (List.replicate 5 ((1 : ℚ), (1 : ℚ))) = [] :=
  ⟨by norm_num, (trim_exact (List.replicate 5 ((1 : ℚ), (1 : ℚ))) 0).2.2 (by norm_num)⟩

/-- Claim C8: the rows surviving the trim form a contiguous suffix of the
input — if a position survives, so does every later position. -/
theorem trim_contiguous (df : List (ℚ × ℚ)) (i j : ℕ) (hij : i ≤ j)
    (hj : j < df.length) (hi : i ∈ trimmedIdx df) : j ∈ trimmedIdx df := by
  rcases (mem_trimmedIdx df i).mp hi with ⟨_, hb⟩
  exact (mem_trimmedIdx df j).mpr ⟨hj, rowDefinedB_mono df i j hij hj hb⟩

/-! Helpers for the C8 witness: a 51-bar strictly increasing input. -/

theorem emaRec_replicate (α q : ℚ) (m : ℕ) (hm : 1 ≤ m) :
    ∀ k, k < m → emaRec α (List.replicate m q) k = q := by
  intro k
  induction' k with k ih
  · intro _
    obtain ⟨m', rfl⟩ : ∃ m', m = m' + 1 := ⟨m - 1, by omega⟩
    rw [emaRec]
    simp [List.replicate_succ]
  · intro hk
    rw [emaRec, ih (by omega)]
    have hget : (List.replicate m q).getD (k + 1) 0 = q := by
      rw [List.getD_eq_getElem _ _ (by simpa using hk)]
      simp
    rw [hget]
    ring

theorem closesOf_rangeCast :
    closesOf ((List.range 51).map (fun t : ℕ => ((t : ℚ), (1 : ℚ))))
      = (List.range 51).map (fun t : ℕ => (t : ℚ)) := by
  rw [closesOf, List.map_map]
  rfl

theorem diffs_rangeCast :
    diffs ((List.range 51).map (fun t : ℕ => (t : ℚ))) = List.replicate 50 1 := by
  apply List.ext_getElem?
  intro j
  by_cases hj : j < 50
  · rw [diffs_getElem? _ _ (by simp; omega)]
    have h1 : ((List.range 51).map (fun t : ℕ => (t : ℚ))).getD (j + 1) 0 = ((j + 1 : ℕ) : ℚ) :=
      getD_eq_of_getElem? _ _ _ _ (rangeMap_getElem? _ _ _ (by omega))
    have h2 : ((List.range 51).map (fun t : ℕ => (t : ℚ))).getD j 0 = ((j : ℕ) : ℚ) :=
      getD_eq_of_getElem? _ _ _ _ (rangeMap_getElem? _ _ _ (by omega))
    rw [h1, h2, List.getElem?_replicate, if_pos hj]
    congr 1
    push_cast
    ring
  · rw [List.getElem?_eq_none (by rw [diffs_length]; simp; omega),
      List.getElem?_eq_none (by simp; omega)]

theorem gainMags_rangeCast :
    gainMags ((List.range 51).map (fun t : ℕ => (t : ℚ))) = List.replicate 50 1 := by
  rw [gainMags, diffs_rangeCast, List.map_replicate]
  norm_num

/-- Witness for C8: in the 51-bar increasing input, row 49 survives the trim
and the theorem carries survival to row 50. -/
theorem trim_contiguous_witness :
    50 ∈ trimmedIdx ((List.range 51).map (fun t : ℕ => ((t : ℚ), (1 : ℚ)))) := by
  set df := (List.range 51).map (fun t : ℕ => ((t : ℚ), (1 : ℚ))) with hdf
  have hlen : df.length = 51 := by rw [hdf]; simp
  have hcl : (closesOf df).length = 51 := by rw [closesOf_length, hlen]
  have hg := avgGainAt_succ (closesOf df) 48 (by rw [hcl]; omega)
  have hl := avgLossAt_succ (closesOf df) 48 (by rw [hcl]; omega)
  have hone : emaRec (2 / ((14 : ℚ) + 1)) (gainMags (closesOf df)) 48 = 1 := by
    rw [hdf, closesOf_rangeCast, gainMags_rangeCast]
    exact emaRec_replicate _ _ 50 (by norm_num) 48 (by norm_num)
  have hne : ¬(emaRec (2 / ((14 : ℚ) + 1)) (gainMags (closesOf df)) 48 = 0 ∧
      emaRec (2 / ((14 : ℚ) + 1)) (lossMags (closesOf df)) 48 = 0) := by
    intro hboth
    rw [hone] at hboth
    exact absurd hboth.1 (by norm_num)
  have hrsi : rsiAt (closesOf df) 49 ≠ FV.nan :=
    rsiAt_ne_nan_of _ _ _ _ hg hl hne
  have hi : 49 ∈ trimmedIdx df := by
    apply (mem_trimmedIdx _ _).mpr
    refine ⟨by rw [hlen]; omega, (rowDefinedB_iff _ _).mpr
      ⟨sma_isSome_ge 20 _ 49 (by omega), sma_isSome_ge 50 _ 49 (by omega), hrsi,
        ?_, ?_, ?_, ?_, sma_isSome_ge 20 _ 49 (by omega),
        upperAt_isSome _ 49 (by omega), lowerAt_isSome _ 49 (by omega),
        sma_isSome_ge 20 _ 49 (by omega)⟩⟩
    · rw [ema12At_eq _ _ (by rw [hcl]; omega)]; rfl
    · rw [ema26At_eq _ _ (by rw [hcl]; omega)]; rfl
    · rw [macdAt_eq _ _ (by rw [hcl]; omega)]; rfl
    · rw [signalAt_eq _ _ (by rw [hcl]; omega)]; rfl
  exact trim_contiguous df 49 50 (by omega) (by rw [hlen]; omega) hi

/-- Claim C9: the pipeline is a pure function of its input — two runs over
equal inputs produce identical output, with no hidden state between
invocations. -/
theorem pipeline_deterministic (d1 d2 : Option (List (ℚ × ℚ))) (h : d1 = d2) :
    calculate_technical_indicators d1 = calculate_technical_indicators d2 := by
  rw [h]

/-- Witness for C9: two runs over the same one-bar input agree. -/
theorem pipeline_deterministic_witness :
    calculate_technical_indicators (some [((1 : ℚ), (2 : ℚ))])
      = calculate_technical_indicators (some [((1 : ℚ), (2 : ℚ))]) :=
  pipeline_deterministic _ _ rfl

/-- Claim C10: on a `None` input or an empty frame the engine returns its
input unchanged, attaching no indicator column and raising no error. -/
theorem engine_passthrough :
    calculate_technical_indicators none = EngineResult.raw none ∧
    calculate_technical_indicators (some []) = EngineResult.raw (some []) :=
  ⟨rfl, rfl⟩
